import Mathlib

/-!
Verification of the publications-query script (publications_query.py).

The script's records are Python dictionaries mapping string field names to
JSON values (strings, lists of strings, booleans); the two query results are
Python dictionaries mapping bibcodes to such records.  We embed both layers
as association lists with Python dict semantics: an assignment replaces the
first (and, for a well-formed dict, only) entry with the given key in place,
or appends a new entry at the end; lookup returns the first entry.
-/

namespace PubQuery

/-- Values a publication record can hold: JSON strings, lists of strings
(author lists, keyword lists, property lists, ...) and booleans. -/
inductive Val where
  | str : String → Val
  | list : List String → Val
  | bool : Bool → Val
deriving DecidableEq

/-- A publication record: a Python dict from field names to values. -/
abbrev Record := List (String × Val)

/-- A query result: a Python dict from bibcodes to publication records. -/
abbrev Dict := List (String × Record)

/-- Python dict lookup `d[k]` (as an Option): the first entry with key `k`. -/
def alget? {β : Type} (d : List (String × β)) (k : String) : Option β :=
  (d.find? (fun p => p.1 == k)).map Prod.snd

/-- Python dict assignment `d[k] = v`: replace the first entry with key `k`
in place, or append a new entry at the end. -/
def alupdate {β : Type} : List (String × β) → String → β → List (String × β)
  | [], k, v => [(k, v)]
  | p :: d, k, v => if p.1 == k then (k, v) :: d else p :: alupdate d k v

/-- The keys of a dict, in insertion order. -/
def alkeys {β : Type} (d : List (String × β)) : List String :=
  d.map Prod.fst

/-- Python dict merge `{**a, **b}`: start from `a` and assign every entry of
`b` in order (later write wins). -/
def dictMerge (a b : Dict) : Dict :=
  b.foldl (fun acc kv => alupdate acc kv.1 kv.2) a

/-- One step of the keyword-restoring loop in run_pub:
`all[b]['keywords'] = by_keywords[b]['keywords']` for one entry of
by_keywords (a missing key on either side raises a Python KeyError,
modelled as `none`). -/
def fixKeyword (d : Dict) (kv : String × Record) : Option Dict :=
  match alget? kv.2 "keywords", alget? d kv.1 with
  | some v, some r => some (alupdate d kv.1 (alupdate r "keywords" v))
  | _, _ => none

/-- The loop `for b in by_keywords: all[b]['keywords'] = by_keywords[b]['keywords']`
of run_pub; for a well-formed dict, iterating over its entries is iterating
over its keys and looking each one up. -/
def fixKeywords (d : Dict) (byKw : Dict) : Option Dict :=
  byKw.foldlM fixKeyword d

/-- The flattening `publications = [all[b] for b in all.keys()]` of run_pub:
one record per key, in key order (for a well-formed dict every lookup hits). -/
def flattenDict (d : Dict) : List Record :=
  (alkeys d).map (fun b => (alget? d b).getD [])

/-- Code-point lexicographic order on character lists; this is how Python
compares the bibcode strings handed to `sort(key=...)`. -/
def lexLe : List Char → List Char → Bool
  | [], _ => true
  | _ :: _, [] => false
  | a :: as, b :: bs =>
      a.toNat < b.toNat || (a.toNat == b.toNat && lexLe as bs)

/-- Python string comparison `s <= t`. -/
def strLe (s t : String) : Bool := lexLe s.toList t.toList

/-- The string bibcode of a record, when present: the sort key
`lambda p: p['bibcode']` of run_pub. -/
def bibkey? (p : Record) : Option String :=
  match alget? p "bibcode" with
  | some (Val.str s) => some s
  | _ => none

/-- The order `publications.sort(key=lambda p: p['bibcode'])` sorts by. -/
def pubLE (p q : Record) : Prop :=
  strLe ((bibkey? p).getD "") ((bibkey? q).getD "") = true

instance : DecidableRel pubLE := fun _ _ =>
  inferInstanceAs (Decidable (_ = true))

/-- The in-place sort `publications.sort(key=lambda p: p['bibcode'])`.
Python raises a KeyError unless every record has a bibcode (modelled as
`none`; the records produced by the queries carry string bibcodes).  CPython
uses a stable sort; the claims proved below (sortedness and permutation)
hold for every sorting algorithm, and we use insertion sort, which is
likewise stable. -/
def sortPubs (ps : List Record) : Option (List Record) :=
  if ps.all (fun p => (bibkey? p).isSome) then some (List.insertionSort pubLE ps)
  else none

/-- The quote character, as Python repr uses around strings. -/
def pyQuote : String := String.mk [Char.ofNat 39]

/-- Python str() of a value, as used by `'...{0}...'.format(...)`: a string
renders as itself, a boolean as True or False, a list via repr of its
elements. -/
def pyFormat : Val → String
  | Val.str s => s
  | Val.bool b => if b then "True" else "False"
  | Val.list xs => "[" ++ String.intercalate ", " (xs.map (fun x => pyQuote ++ x ++ pyQuote)) ++ "]"

/-- The loop body `p['ads_url'] = 'https://ui.adsabs.harvard.edu/#abs/{0}/abstract'.format(p['bibcode'])`
of run_pub; a record without a bibcode raises a KeyError (`none`). -/
def addAdsUrl (p : Record) : Option Record :=
  match alget? p "bibcode" with
  | some v => some (alupdate p "ads_url"
      (Val.str ("https://ui.adsabs.harvard.edu/#abs/" ++ pyFormat v ++ "/abstract")))
  | none => none

/-- Does the character list `n` occur at the start of `l`? -/
def beginsWith : List Char → List Char → Bool
  | [], _ => true
  | _ :: _, [] => false
  | a :: as, b :: bs => a == b && beginsWith as bs

/-- Does the character list `n` occur somewhere inside `l`? -/
def hasSub (n : List Char) : List Char → Bool
  | [] => n.isEmpty
  | c :: cs => beginsWith n (c :: cs) || hasSub n cs

/-- Python substring test `needle in hay` on strings. -/
def pyInStr (needle hay : String) : Bool := hasSub needle.toList hay.toList

/-- Python membership test `needle in v`: substring test on a string,
element test on a list, a TypeError (`none`) on a boolean. -/
def pyIn (needle : String) (v : Val) : Option Bool :=
  match v with
  | Val.str s => some (pyInStr needle s)
  | Val.list xs => some (xs.contains needle)
  | Val.bool _ => none

/-- The loop body `p['refereed'] = 'REFEREED' in p['property']` of run_pub;
a record without a property field raises a KeyError (`none`). -/
def addRefereed (p : Record) : Option Record :=
  match alget? p "property" with
  | some v => (pyIn "REFEREED" v).map (fun b => alupdate p "refereed" (Val.bool b))
  | none => none

/-- Python truthiness of a value, as tested by `if c in p and p[c]:`. -/
def truthy : Val → Bool
  | Val.str s => !s.isEmpty
  | Val.list xs => !xs.isEmpty
  | Val.bool b => b

/-- Python `sep.join(v)`: comma-joins a list of strings; a string is a
sequence of its characters, so joining a string interleaves the separator
between its characters; joining a boolean is a TypeError (`none`). -/
def pyJoin (sep : String) : Val → Option Val
  | Val.list xs => some (Val.str (String.intercalate sep xs))
  | Val.str s => some (Val.str (String.intercalate sep (s.toList.map (fun c => String.mk [c]))))
  | Val.bool _ => none

/-- The columns the display-normalization loop of run_pub rewrites. -/
def list_value_columns : List String := ["author", "title", "doi", "keywords", "page"]

/-- The inner loop body of the normalization loop of run_pub:
`if c in p and p[c]: p[c] = ', '.join(p[c])`. -/
def normalizeField (p : Record) (c : String) : Option Record :=
  match alget? p c with
  | some v => if truthy v then (pyJoin ", " v).map (fun w => alupdate p c w) else some p
  | none => some p

/-- The normalization loop of run_pub applied to one record: rewrite each of
the five list_value_columns in turn. -/
def normalizeRecord (p : Record) : Option Record :=
  list_value_columns.foldlM normalizeField p

/-- The three enrichment loops of run_pub over the sorted publication list:
add ads_url, add refereed, then normalize the display columns. -/
def enrichAll (ps : List Record) : Option (List Record) := do
  let withUrl ← ps.mapM addAdsUrl
  let withRef ← withUrl.mapM addRefereed
  withRef.mapM normalizeRecord

/-- The set of fields the three enrichment loops of run_pub may write. -/
def modified_columns : List String :=
  ["ads_url", "refereed", "author", "title", "doi", "keywords", "page"]

/-- The ordered column dictionary of spreadsheet_columns(). -/
def spreadsheet_columns : List (String × String) :=
  [("record_type", "Record Type"),
   ("publication_number", "Doc/Publication Number"),
   ("author", "Responsibility"),
   ("title", "Title"),
   ("pub", "Journal"),
   ("volume", "Volume"),
   ("issue", "Issue"),
   ("page", "Page"),
   ("refereed", "Refereed"),
   ("bibcode", "Bibcode"),
   ("doi", "DOI"),
   ("ads_url", "ADS URL"),
   ("abstract", "Abstract"),
   ("telescopes", "Telescopes"),
   ("keywords", "Keywords")]

/-- The cell grid publications_spreadsheet writes: one row per publication,
one cell per column, `p.get(c, '')` in each cell. -/
def publications_spreadsheet (publications : List Record) (columns : List String) :
    List (List Val) :=
  publications.map (fun p => columns.map (fun c => (alget? p c).getD (Val.str "")))

/-- The publication list run_pub builds from the two query results: merge,
restore keywords, flatten, sort, then enrich.  run_pub hands exactly this
list to publications_spreadsheet and send_mails; notably it takes no input
from the previously-found-bibcodes file. -/
def buildPublications (byKw byAu : Dict) : Option (List Record) := do
  let fixed ← fixKeywords (dictMerge byKw byAu) byKw
  let sorted ← sortPubs (flattenDict fixed)
  enrichAll sorted

/-- ignore_tmp_bibcodes: keep the bibcodes that do not contain tmp. -/
def ignore_tmp_bibcodes (bibcodes : List String) : List String :=
  bibcodes.filter (fun b => !(pyInStr "tmp" b))

/-- The filesystem state previously_found_bibcodes runs against: the content
of the PREVIOUS_BIBCODES_FILE when it exists, and whether the operating
system lets the script create that file. -/
structure FileSys where
  prevFile : Option String
  createOk : Bool
deriving DecidableEq

/-- The body of _ensure_previously_recorded_file_exists: create the file
empty when it is missing (when the OS permits), then raise IOError when it
still does not exist. -/
def ensure_previously_recorded_file_exists (fs : FileSys) : Except String FileSys :=
  let fs1 := if fs.prevFile.isSome then fs
             else if fs.createOk then FileSys.mk (some "") fs.createOk else fs
  if fs1.prevFile.isSome then Except.ok fs1
  else Except.error "The file for storing previously found bibcodes could not be created"

/-- Python file.readlines(): the lines of the content, each keeping its
trailing newline, the last line included only when nonempty. -/
def readlinesChars : List Char → List Char → List String
  | [], acc => if acc.isEmpty then [] else [String.mk acc.reverse]
  | c :: cs, acc =>
      if c = Char.ofNat 10 then String.mk (acc.reverse ++ [c]) :: readlinesChars cs []
      else readlinesChars cs (c :: acc)

/-- Python readlines on a string. -/
def pyReadlines (s : String) : List String := readlinesChars s.toList []

/-- Python str.strip(): drop leading and trailing whitespace. -/
def pyStrip (s : String) : String :=
  String.mk (((s.toList.dropWhile Char.isWhitespace).reverse.dropWhile Char.isWhitespace).reverse)

/-- previously_found_bibcodes: ensure the file exists, then return its
stripped lines (reading a file that still does not exist would raise, which
the ensure step already guarantees cannot happen). -/
def previously_found_bibcodes (fs : FileSys) : Except String (List String) :=
  match ensure_previously_recorded_file_exists fs with
  | Except.error e => Except.error e
  | Except.ok fs1 =>
      match fs1.prevFile with
      | some content => Except.ok ((pyReadlines content).map pyStrip)
      | none => Except.error "FileNotFoundError"

/-- A filesystem whose previously-found file records one bibcode. -/
def previously_recorded_fs : FileSys :=
  FileSys.mk (some "2019MNRAS.100.200S\n") true

/-- A keyword-query record carrying that same, previously recorded bibcode. -/
def previously_seen_record : Record :=
  [("bibcode", Val.str "2019MNRAS.100.200S"),
   ("keywords", Val.list ["SAAO"]),
   ("property", Val.list ["REFEREED"])]

/-- A by-keywords query result returning only the previously seen record. -/
def by_keywords_example : Dict :=
  [("2019MNRAS.100.200S", previously_seen_record)]

/-- A record whose telescopes field is a list; telescopes is a displayed
spreadsheet column the normalization loop never touches. -/
def telescopes_record : Record :=
  [("bibcode", Val.str "2020TEL..300.1X"),
   ("keywords", Val.list ["SAAO"]),
   ("property", Val.list []),
   ("telescopes", Val.list ["SALT", "Lesedi"])]

theorem alget_nil {β : Type} (k : String) : alget? ([] : List (String × β)) k = none := rfl

theorem alget_cons {β : Type} (p : String × β) (d : List (String × β)) (k : String) :
    alget? (p :: d) k = if p.1 = k then some p.2 else alget? d k := by
  by_cases h : p.1 = k
  · simp [alget?, List.find?_cons, h]
  · simp [alget?, List.find?_cons, h]

theorem alupdate_cons {β : Type} (p : String × β) (d : List (String × β)) (k : String) (v : β) :
    alupdate (p :: d) k v = if p.1 = k then (k, v) :: d else p :: alupdate d k v := by
  by_cases h : p.1 = k <;> simp [alupdate, h]

theorem alget_update_self {β : Type} (d : List (String × β)) (k : String) (v : β) :
    alget? (alupdate d k v) k = some v := by
  induction d with
  | nil => simp [alupdate, alget_cons]
  | cons p d ih =>
    rw [alupdate_cons]
    by_cases h : p.1 = k
    · simp [h, alget_cons]
    · simp [h, alget_cons, ih]

theorem alkeys_nil {β : Type} : alkeys ([] : List (String × β)) = [] := rfl

theorem alkeys_cons {β : Type} (p : String × β) (d : List (String × β)) :
    alkeys (p :: d) = p.1 :: alkeys d := rfl

theorem alget_update_ne {β : Type} (d : List (String × β)) (k k' : String) (v : β)
    (hne : k' ≠ k) : alget? (alupdate d k v) k' = alget? d k' := by
  induction d with
  | nil => simp [alupdate, alget_cons, Ne.symm hne]
  | cons p d ih =>
    rw [alupdate_cons]
    by_cases h : p.1 = k
    · rw [if_pos h, alget_cons, alget_cons, if_neg (Ne.symm hne), if_neg (h ▸ Ne.symm hne)]
    · rw [if_neg h, alget_cons, alget_cons, ih]

theorem alkeys_update_of_get {β : Type} (d : List (String × β)) (k : String) (v : β)
    (h : (alget? d k).isSome) : alkeys (alupdate d k v) = alkeys d := by
  induction d with
  | nil => simp [alget_nil] at h
  | cons p d ih =>
    rw [alupdate_cons]
    by_cases hp : p.1 = k
    · rw [if_pos hp, alkeys_cons, alkeys_cons, hp]
    · rw [alget_cons, if_neg hp] at h
      rw [if_neg hp, alkeys_cons, alkeys_cons, ih h]

theorem mem_alkeys_update {β : Type} (d : List (String × β)) (k k' : String) (v : β) :
    k' ∈ alkeys (alupdate d k v) ↔ k' ∈ alkeys d ∨ k' = k := by
  induction d with
  | nil => simp [alupdate, alkeys]
  | cons p d ih =>
    rw [alupdate_cons]
    by_cases hp : p.1 = k
    · rw [if_pos hp]
      simp only [alkeys_cons, List.mem_cons]
      constructor
      · rintro (h | h)
        · exact Or.inr h
        · exact Or.inl (Or.inr h)
      · rintro ((h | h) | h)
        · exact Or.inl (h.trans hp)
        · exact Or.inr h
        · exact Or.inl h
    · rw [if_neg hp]
      simp only [alkeys_cons, List.mem_cons, ih]
      tauto

theorem nodup_alkeys_update {β : Type} (d : List (String × β)) (k : String) (v : β)
    (h : (alkeys d).Nodup) : (alkeys (alupdate d k v)).Nodup := by
  induction d with
  | nil => simp [alupdate, alkeys]
  | cons p d ih =>
    rw [alkeys_cons, List.nodup_cons] at h
    rw [alupdate_cons]
    by_cases hp : p.1 = k
    · rw [if_pos hp, alkeys_cons, List.nodup_cons]
      exact ⟨by simpa [hp] using h.1, h.2⟩
    · rw [if_neg hp, alkeys_cons, List.nodup_cons]
      refine ⟨?_, ih h.2⟩
      intro hmem
      rcases (mem_alkeys_update d k p.1 v).mp hmem with h1 | h1
      · exact h.1 h1
      · exact hp h1

theorem alget_isSome_iff_mem_alkeys {β : Type} (d : List (String × β)) (k : String) :
    (alget? d k).isSome ↔ k ∈ alkeys d := by
  induction d with
  | nil => simp [alget_nil, alkeys]
  | cons p d ih =>
    rw [alget_cons]
    by_cases hp : p.1 = k
    · simp [hp, alkeys_cons]
    · rw [if_neg hp, alkeys_cons, List.mem_cons]
      simp [ih, Ne.symm hp]

theorem dictMerge_nil (a : Dict) : dictMerge a [] = a := rfl

theorem dictMerge_cons (a : Dict) (kv : String × Record) (b : Dict) :
    dictMerge a (kv :: b) = dictMerge (alupdate a kv.1 kv.2) b := rfl

theorem alget_dictMerge_of_not_mem (a b : Dict) (k : String) (hk : k ∉ alkeys b) :
    alget? (dictMerge a b) k = alget? a k := by
  induction b generalizing a with
  | nil => rfl
  | cons kv b ih =>
    rw [alkeys_cons, List.mem_cons] at hk
    push_neg at hk
    rw [dictMerge_cons, ih _ hk.2, alget_update_ne _ _ _ _ hk.1]

theorem alget_dictMerge_of_get_right (a b : Dict) (k : String) (r : Record)
    (hb : (alkeys b).Nodup) (hget : alget? b k = some r) :
    alget? (dictMerge a b) k = some r := by
  induction b generalizing a with
  | nil => simp [alget_nil] at hget
  | cons kv b ih =>
    rw [alkeys_cons, List.nodup_cons] at hb
    rw [alget_cons] at hget
    rw [dictMerge_cons]
    by_cases hk : kv.1 = k
    · rw [if_pos hk] at hget
      rw [alget_dictMerge_of_not_mem _ _ _ (hk ▸ hb.1)]
      subst hk
      rw [alget_update_self]
      exact hget
    · rw [if_neg hk] at hget
      exact ih _ hb.2 hget

theorem mem_alkeys_dictMerge (a b : Dict) (k : String) :
    k ∈ alkeys (dictMerge a b) ↔ k ∈ alkeys a ∨ k ∈ alkeys b := by
  induction b generalizing a with
  | nil => simp [dictMerge_nil, alkeys]
  | cons kv b ih =>
    rw [dictMerge_cons, ih, mem_alkeys_update, alkeys_cons, List.mem_cons]
    tauto

theorem nodup_alkeys_dictMerge (a b : Dict) (ha : (alkeys a).Nodup) :
    (alkeys (dictMerge a b)).Nodup := by
  induction b generalizing a with
  | nil => exact ha
  | cons kv b ih => exact ih _ (nodup_alkeys_update _ _ _ ha)

theorem fixKeywords_nil (d : Dict) : fixKeywords d [] = some d := rfl

theorem fixKeywords_cons (d : Dict) (kv : String × Record) (b : Dict) :
    fixKeywords d (kv :: b) = (fixKeyword d kv).bind (fun d1 => fixKeywords d1 b) := by
  cases h : fixKeyword d kv <;>
    simp [fixKeywords, List.foldlM_cons, h]

theorem fixKeyword_eq_some (d : Dict) (kv : String × Record) (d1 : Dict) :
    fixKeyword d kv = some d1 ↔
      ∃ v r, alget? kv.2 "keywords" = some v ∧ alget? d kv.1 = some r ∧
        d1 = alupdate d kv.1 (alupdate r "keywords" v) := by
  unfold fixKeyword
  cases h1 : alget? kv.2 "keywords" <;> cases h2 : alget? d kv.1 <;>
    simp [h1, h2, eq_comm]

theorem fixKeywords_alkeys (kw : Dict) (d d' : Dict)
    (h : fixKeywords d kw = some d') : alkeys d' = alkeys d := by
  induction kw generalizing d with
  | nil => rw [fixKeywords_nil] at h; cases h; rfl
  | cons kv b ih =>
    rw [fixKeywords_cons, Option.bind_eq_some] at h
    obtain ⟨d1, h1, h2⟩ := h
    obtain ⟨v, r, _, hget, hd1⟩ := (fixKeyword_eq_some d kv d1).mp h1
    rw [ih d1 h2, hd1, alkeys_update_of_get _ _ _ (by simp [hget])]

theorem fixKeywords_get_not_mem (kw : Dict) (d d' : Dict) (b : String)
    (hb : b ∉ alkeys kw) (h : fixKeywords d kw = some d') :
    alget? d' b = alget? d b := by
  induction kw generalizing d with
  | nil => rw [fixKeywords_nil] at h; cases h; rfl
  | cons kv t ih =>
    rw [alkeys_cons, List.mem_cons] at hb
    push_neg at hb
    rw [fixKeywords_cons, Option.bind_eq_some] at h
    obtain ⟨d1, h1, h2⟩ := h
    obtain ⟨v, r, _, hget, hd1⟩ := (fixKeyword_eq_some d kv d1).mp h1
    rw [ih d1 hb.2 h2, hd1, alget_update_ne _ _ _ _ hb.1]

theorem fixKeywords_get_mem (kw : Dict) (d d' : Dict) (b : String) (rK : Record)
    (hnd : (alkeys kw).Nodup) (hk : alget? kw b = some rK)
    (h : fixKeywords d kw = some d') :
    ∃ v r0, alget? rK "keywords" = some v ∧ alget? d b = some r0 ∧
      alget? d' b = some (alupdate r0 "keywords" v) := by
  induction kw generalizing d with
  | nil => simp [alget_nil] at hk
  | cons kv t ih =>
    rw [alkeys_cons, List.nodup_cons] at hnd
    rw [fixKeywords_cons, Option.bind_eq_some] at h
    obtain ⟨d1, h1, h2⟩ := h
    obtain ⟨v, r, hvk, hget, hd1⟩ := (fixKeyword_eq_some d kv d1).mp h1
    rw [alget_cons] at hk
    by_cases hb : kv.1 = b
    · rw [if_pos hb] at hk
      cases hk
      refine ⟨v, r, hvk, hb ▸ hget, ?_⟩
      rw [fixKeywords_get_not_mem t d1 d' b (hb ▸ hnd.1) h2, hd1]
      subst hb
      rw [alget_update_self]
    · rw [if_neg hb] at hk
      obtain ⟨v', r0, hv', hr0, hr'⟩ := ih d1 hnd.2 hk h2
      rw [hd1, alget_update_ne _ _ _ _ (Ne.symm hb)] at hr0
      exact ⟨v', r0, hv', hr0, hr'⟩

theorem lexLe_total (as bs : List Char) : lexLe as bs = true ∨ lexLe bs as = true := by
  induction as generalizing bs with
  | nil => left; rfl
  | cons a as ih =>
    cases bs with
    | nil => right; rfl
    | cons b bs =>
      rcases Nat.lt_trichotomy a.toNat b.toNat with h | h | h
      · left; simp [lexLe, h]
      · rcases ih bs with h1 | h1
        · left; simp [lexLe, h, h1]
        · right; simp [lexLe, h, h1]
      · right; simp [lexLe, h]

theorem lexLe_trans (as bs cs : List Char) (h1 : lexLe as bs = true)
    (h2 : lexLe bs cs = true) : lexLe as cs = true := by
  induction as generalizing bs cs with
  | nil => rfl
  | cons a as ih =>
    cases bs with
    | nil => simp [lexLe] at h1
    | cons b bs =>
      cases cs with
      | nil => simp [lexLe] at h2
      | cons c cs =>
        simp only [lexLe, Bool.or_eq_true, Bool.and_eq_true, beq_iff_eq,
          decide_eq_true_eq] at h1 h2 ⊢
        rcases h1 with h1 | ⟨h1e, h1r⟩
        · rcases h2 with h2 | ⟨h2e, h2r⟩
          · exact Or.inl (h1.trans h2)
          · exact Or.inl (h2e ▸ h1)
        · rcases h2 with h2 | ⟨h2e, h2r⟩
          · exact Or.inl (h1e ▸ h2)
          · exact Or.inr ⟨h1e.trans h2e, ih bs cs h1r h2r⟩

theorem addAdsUrl_get_ne (p q : Record) (c : String) (h : addAdsUrl p = some q)
    (hc : c ≠ "ads_url") : alget? q c = alget? p c := by
  unfold addAdsUrl at h
  cases hb : alget? p "bibcode" with
  | none => rw [hb] at h; cases h
  | some v =>
    rw [hb] at h
    cases h
    exact alget_update_ne _ _ _ _ hc

theorem addRefereed_get_ne (p q : Record) (c : String) (h : addRefereed p = some q)
    (hc : c ≠ "refereed") : alget? q c = alget? p c := by
  unfold addRefereed at h
  cases hb : alget? p "property" with
  | none => rw [hb] at h; cases h
  | some v =>
    rw [hb] at h
    have h' : Option.map (fun b => alupdate p "refereed" (Val.bool b)) (pyIn "REFEREED" v)
        = some q := h
    cases hin : pyIn "REFEREED" v with
    | none => rw [hin] at h'; cases h'
    | some b =>
      rw [hin] at h'
      cases h'
      exact alget_update_ne _ _ _ _ hc

theorem normalizeField_get_ne (p q : Record) (c c' : String)
    (h : normalizeField p c = some q) (hc : c' ≠ c) : alget? q c' = alget? p c' := by
  unfold normalizeField at h
  cases hb : alget? p c with
  | none => rw [hb] at h; cases h; rfl
  | some v =>
    rw [hb] at h
    have h' : (if truthy v = true then Option.map (fun w => alupdate p c w) (pyJoin ", " v)
        else some p) = some q := h
    by_cases ht : truthy v = true
    · rw [if_pos ht] at h'
      cases hj : pyJoin ", " v with
      | none => rw [hj] at h'; cases h'
      | some w =>
        rw [hj] at h'
        cases h'
        exact alget_update_ne _ _ _ _ hc
    · rw [if_neg ht] at h'
      cases h'
      rfl

theorem normFold_cons (c : String) (cols : List String) (p : Record) :
    (c :: cols).foldlM normalizeField p =
      (normalizeField p c).bind (fun p1 => cols.foldlM normalizeField p1) := by
  cases h : normalizeField p c <;> simp [List.foldlM_cons, h]

theorem normFold_get_not_mem (cols : List String) (p q : Record) (c : String)
    (hc : c ∉ cols) (h : cols.foldlM normalizeField p = some q) :
    alget? q c = alget? p c := by
  induction cols generalizing p with
  | nil => cases h; rfl
  | cons c0 cols ih =>
    rw [List.mem_cons] at hc
    push_neg at hc
    rw [normFold_cons, Option.bind_eq_some] at h
    obtain ⟨p1, h1, h2⟩ := h
    rw [ih p1 hc.2 h2, normalizeField_get_ne p p1 c0 c h1 hc.1]

theorem normFold_get_mem (cols : List String) (p q : Record) (c : String)
    (hnd : cols.Nodup) (hc : c ∈ cols) (h : cols.foldlM normalizeField p = some q) :
    (∀ v, alget? p c = some v → truthy v = true →
        ∃ w, pyJoin ", " v = some w ∧ alget? q c = some w)
    ∧ (alget? p c = none → alget? q c = none)
    ∧ (∀ v, alget? p c = some v → truthy v = false → alget? q c = some v) := by
  induction cols generalizing p with
  | nil => cases hc
  | cons c0 cols ih =>
    rw [List.nodup_cons] at hnd
    rw [normFold_cons, Option.bind_eq_some] at h
    obtain ⟨p1, h1, h2⟩ := h
    rcases List.mem_cons.mp hc with hc0 | hctl
    · subst hc0
      have hrest : alget? q c = alget? p1 c := normFold_get_not_mem cols p1 q c hnd.1 h2
      unfold normalizeField at h1
      refine ⟨?_, ?_, ?_⟩
      · intro v hv htr
        rw [hv] at h1
        have h1' : (if truthy v = true then Option.map (fun w => alupdate p c w) (pyJoin ", " v)
            else some p) = some p1 := h1
        rw [if_pos htr] at h1'
        cases hj : pyJoin ", " v with
        | none => rw [hj] at h1'; cases h1'
        | some w =>
          rw [hj] at h1'
          cases h1'
          exact ⟨w, rfl, by rw [hrest, alget_update_self]⟩
      · intro hv
        rw [hv] at h1
        have h1' : some p = some p1 := h1
        cases h1'
        rw [hrest, hv]
      · intro v hv htr
        rw [hv] at h1
        have h1' : (if truthy v = true then Option.map (fun w => alupdate p c w) (pyJoin ", " v)
            else some p) = some p1 := h1
        rw [if_neg (by simp [htr])] at h1'
        cases h1'
        rw [hrest, hv]
    · have hne : c ≠ c0 := fun hEq => hnd.1 (hEq ▸ hctl)
      have hstep : alget? p1 c = alget? p c := normalizeField_get_ne p p1 c0 c h1 hne
      have := ih p1 hnd.2 hctl h2
      refine ⟨?_, ?_, ?_⟩
      · intro v hv htr
        exact this.1 v (hstep.trans hv) htr
      · intro hv
        exact this.2.1 (hstep.trans hv)
      · intro v hv htr
        exact this.2.2 v (hstep.trans hv) htr

theorem mapM_eq_some_forall2 {α β : Type} (f : α → Option β) (ps : List α) (qs : List β)
    (h : ps.mapM f = some qs) : List.Forall₂ (fun p q => f p = some q) ps qs := by
  induction ps generalizing qs with
  | nil => cases h; exact List.Forall₂.nil
  | cons p ps ih =>
    rw [List.mapM_cons] at h
    cases hf : f p with
    | none => rw [hf] at h; cases h
    | some q =>
      rw [hf] at h
      cases hrest : ps.mapM f with
      | none => rw [hrest] at h; cases h
      | some qs0 =>
        rw [hrest] at h
        simp only [Option.bind_some, Option.pure_def, Option.bind_eq_bind] at h
        cases h
        exact List.Forall₂.cons hf (ih qs0 hrest)

theorem forall2_comp {α β γ : Type} {R : α → β → Prop} {S : β → γ → Prop}
    {ps : List α} {qs : List β} {rs : List γ}
    (h1 : List.Forall₂ R ps qs) (h2 : List.Forall₂ S qs rs) :
    List.Forall₂ (fun p r => ∃ q, R p q ∧ S q r) ps rs := by
  induction h1 generalizing rs with
  | nil => cases h2; exact List.Forall₂.nil
  | cons hR _ ih =>
    cases h2 with
    | cons hS htl => exact List.Forall₂.cons ⟨_, hR, hS⟩ (ih htl)

theorem beginsWith_iff (n l : List Char) :
    beginsWith n l = true ↔ ∃ t, l = n ++ t := by
  induction n generalizing l with
  | nil => simp [beginsWith]
  | cons a as ih =>
    cases l with
    | nil => simp [beginsWith]
    | cons b bs =>
      simp only [beginsWith, Bool.and_eq_true, beq_iff_eq, ih, List.cons_append,
        List.cons.injEq]
      constructor
      · rintro ⟨hab, t, ht⟩
        exact ⟨t, hab.symm, ht⟩
      · rintro ⟨t, hab, ht⟩
        exact ⟨hab.symm, t, ht⟩

theorem hasSub_iff (n h : List Char) :
    hasSub n h = true ↔ ∃ pre post, h = pre ++ n ++ post := by
  induction h with
  | nil =>
    simp only [hasSub, List.isEmpty_iff]
    constructor
    · rintro rfl
      exact ⟨[], [], rfl⟩
    · rintro ⟨pre, post, hp⟩
      rcases List.append_eq_nil.mp (List.append_eq_nil.mp hp.symm).1 with ⟨_, h2⟩
      exact h2
  | cons c cs ih =>
    simp only [hasSub, Bool.or_eq_true, beginsWith_iff, ih]
    constructor
    · rintro (⟨t, ht⟩ | ⟨pre, post, hp⟩)
      · exact ⟨[], t, by simp [ht]⟩
      · exact ⟨c :: pre, post, by simp [hp]⟩
    · rintro ⟨pre, post, hp⟩
      cases pre with
      | nil => exact Or.inl ⟨post, by simpa using hp⟩
      | cons c0 pre =>
        rw [List.cons_append, List.cons_append, List.cons.injEq] at hp
        exact Or.inr ⟨pre, post, hp.2⟩

/-- C8: for every record with a bibcode field holding a string s, the
enrichment sets ads_url to exactly the ADS prefix, then s, then /abstract. -/
theorem ads_url_formula (p q : Record) (s : String)
    (h : addAdsUrl p = some q) (hb : alget? p "bibcode" = some (Val.str s)) :
    alget? q "ads_url"
      = some (Val.str ("https://ui.adsabs.harvard.edu/#abs/" ++ s ++ "/abstract")) := by
  unfold addAdsUrl at h
  rw [hb] at h
  cases h
  rw [alget_update_self]
  rfl

/-- Witness for ads_url_formula at a concrete record. -/
theorem ads_url_formula_witness :
    alget? [("bibcode", Val.str "2024Z...9.9Q"),
            ("ads_url", Val.str ("https://ui.adsabs.harvard.edu/#abs/" ++ "2024Z...9.9Q" ++ "/abstract"))]
        "ads_url"
      = some (Val.str ("https://ui.adsabs.harvard.edu/#abs/" ++ "2024Z...9.9Q" ++ "/abstract")) :=
  ads_url_formula [("bibcode", Val.str "2024Z...9.9Q")]
    [("bibcode", Val.str "2024Z...9.9Q"),
     ("ads_url", Val.str ("https://ui.adsabs.harvard.edu/#abs/" ++ "2024Z...9.9Q" ++ "/abstract"))]
    "2024Z...9.9Q" (by decide) (by decide)

/-- C5: when the second enrichment loop succeeds, each output record whose
input had a property list carries refereed = ('REFEREED' is an element of
that list). -/
theorem refereed_iff_property_membership (ps qs : List Record)
    (h : ps.mapM addRefereed = some qs) :
    List.Forall₂ (fun p q => ∀ xs, alget? p "property" = some (Val.list xs) →
      alget? q "refereed" = some (Val.bool (xs.contains "REFEREED"))
      ∧ (xs.contains "REFEREED" = true ↔ "REFEREED" ∈ xs)) ps qs := by
  refine (mapM_eq_some_forall2 addRefereed ps qs h).imp ?_
  intro p q hpq xs hxs
  unfold addRefereed at hpq
  rw [hxs] at hpq
  have h' : some (alupdate p "refereed" (Val.bool (xs.contains "REFEREED"))) = some q := hpq
  cases h'
  refine ⟨alget_update_self _ _ _, ?_⟩
  simp

/-- Witness for refereed_iff_property_membership at concrete records. -/
theorem refereed_iff_property_membership_witness :
    List.Forall₂ (fun p q => ∀ xs, alget? p "property" = some (Val.list xs) →
      alget? q "refereed" = some (Val.bool (xs.contains "REFEREED"))
      ∧ (xs.contains "REFEREED" = true ↔ "REFEREED" ∈ xs))
      [[("property", Val.list ["REFEREED", "EPRINT"])]]
      [[("property", Val.list ["REFEREED", "EPRINT"]), ("refereed", Val.bool true)]] :=
  refereed_iff_property_membership
    [[("property", Val.list ["REFEREED", "EPRINT"])]]
    [[("property", Val.list ["REFEREED", "EPRINT"]), ("refereed", Val.bool true)]]
    (by decide)

/-- C9: previously_found_bibcodes ensures the log file exists (creating it
empty when missing), raises exactly when the file still cannot exist, and
otherwise returns the file's lines stripped of surrounding whitespace; in
particular a file that did not previously exist yields the empty list. -/
theorem previously_found_bibcodes_spec (fs : FileSys) :
    ((∃ e, previously_found_bibcodes fs = Except.error e) ↔
      fs.prevFile = none ∧ fs.createOk = false)
    ∧ (fs.prevFile = none → fs.createOk = true →
        previously_found_bibcodes fs = Except.ok [])
    ∧ (∀ c, fs.prevFile = some c →
        previously_found_bibcodes fs = Except.ok ((pyReadlines c).map pyStrip)) := by
  obtain ⟨f, cr⟩ := fs
  cases f with
  | none =>
    cases cr with
    | false =>
      refine ⟨⟨fun _ => ⟨rfl, rfl⟩, fun _ => ⟨_, rfl⟩⟩, ?_, ?_⟩
      · intro _ h; cases h
      · intro c h; cases h
    | true =>
      refine ⟨⟨?_, ?_⟩, ?_, ?_⟩
      · rintro ⟨e, he⟩
        have hok : previously_found_bibcodes (FileSys.mk none true) = Except.ok [] := rfl
        rw [hok] at he
        cases he
      · rintro ⟨_, h⟩; cases h
      · intro _ _; rfl
      · intro c h; cases h
  | some c0 =>
    refine ⟨⟨?_, ?_⟩, ?_, ?_⟩
    · rintro ⟨e, he⟩
      have hok : previously_found_bibcodes (FileSys.mk (some c0) cr)
          = Except.ok ((pyReadlines c0).map pyStrip) := rfl
      rw [hok] at he
      cases he
    · rintro ⟨h, _⟩; cases h
    · intro h; cases h
    · intro c h
      cases h
      rfl

/-- Witness for previously_found_bibcodes_spec: a missing but creatable file
yields the empty list, and an existing one-line file yields its bibcode. -/
theorem previously_found_bibcodes_spec_witness :
    previously_found_bibcodes (FileSys.mk none true) = Except.ok []
    ∧ previously_found_bibcodes (FileSys.mk (some " 2019MNRAS.100.200S\n") true)
        = Except.ok [pyStrip " 2019MNRAS.100.200S\n"] :=
  ⟨(previously_found_bibcodes_spec (FileSys.mk none true)).2.1 rfl rfl,
   (previously_found_bibcodes_spec (FileSys.mk (some " 2019MNRAS.100.200S\n") true)).2.2
     " 2019MNRAS.100.200S\n" rfl⟩

/-- C10: ignore_tmp_bibcodes returns exactly the order-preserving
subsequence of the bibcodes that do not contain tmp as a substring, and is
idempotent. -/
theorem ignore_tmp_bibcodes_spec (l : List String) :
    (ignore_tmp_bibcodes l).Sublist l
    ∧ (∀ b, b ∈ ignore_tmp_bibcodes l ↔
        b ∈ l ∧ ¬ ∃ pre post, b.toList = pre ++ "tmp".toList ++ post)
    ∧ ignore_tmp_bibcodes (ignore_tmp_bibcodes l) = ignore_tmp_bibcodes l := by
  refine ⟨List.filter_sublist l, ?_, ?_⟩
  · intro b
    rw [ignore_tmp_bibcodes, List.mem_filter]
    constructor
    · rintro ⟨hm, hf⟩
      refine ⟨hm, fun hex => ?_⟩
      rw [show pyInStr "tmp" b = hasSub "tmp".toList b.toList from rfl] at hf
      rw [(hasSub_iff _ _).mpr hex] at hf
      cases hf
    · rintro ⟨hm, hnex⟩
      refine ⟨hm, ?_⟩
      rw [show pyInStr "tmp" b = hasSub "tmp".toList b.toList from rfl]
      cases hs : hasSub "tmp".toList b.toList
      · rfl
      · exact absurd ((hasSub_iff _ _).mp hs) hnex
  · simp only [ignore_tmp_bibcodes, List.filter_filter]
    congr 1
    funext b
    cases pyInStr "tmp" b <;> rfl

/-- C2: for an identifier in both query results, the merged-and-fixed record
agrees with the by-authors record on every field except keywords, and its
keywords field is the by-keywords record's keywords field. -/
theorem merge_prefers_authors_except_keywords (byKw byAu : Dict) (b : String)
    (rK rA : Record) (d' : Dict)
    (hKw : (alkeys byKw).Nodup) (hAu : (alkeys byAu).Nodup)
    (hK : alget? byKw b = some rK) (hA : alget? byAu b = some rA)
    (hfix : fixKeywords (dictMerge byKw byAu) byKw = some d') :
    ∃ r, alget? d' b = some r
      ∧ (∀ k, k ≠ "keywords" → alget? r k = alget? rA k)
      ∧ alget? r "keywords" = alget? rK "keywords" := by
  obtain ⟨v, r0, hv, hr0, hr'⟩ :=
    fixKeywords_get_mem byKw (dictMerge byKw byAu) d' b rK hKw hK hfix
  have hmerge : alget? (dictMerge byKw byAu) b = some rA :=
    alget_dictMerge_of_get_right _ _ _ _ hAu hA
  rw [hmerge] at hr0
  cases hr0
  refine ⟨alupdate rA "keywords" v, hr', ?_, ?_⟩
  · intro k hk
    exact alget_update_ne _ _ _ _ hk
  · rw [alget_update_self, hv]

/-- Witness for merge_prefers_authors_except_keywords at concrete query
results sharing the identifier B. -/
theorem merge_prefers_authors_except_keywords_witness :
    ∃ r, alget? [("B", [("x", Val.str "au"), ("keywords", Val.list ["k1"])])] "B" = some r
      ∧ (∀ k, k ≠ "keywords" → alget? r k = alget? [("x", Val.str "au")] k)
      ∧ alget? r "keywords"
          = alget? [("keywords", Val.list ["k1"]), ("x", Val.str "kw")] "keywords" :=
  merge_prefers_authors_except_keywords
    [("B", [("keywords", Val.list ["k1"]), ("x", Val.str "kw")])]
    [("B", [("x", Val.str "au")])]
    "B"
    [("keywords", Val.list ["k1"]), ("x", Val.str "kw")]
    [("x", Val.str "au")]
    [("B", [("x", Val.str "au"), ("keywords", Val.list ["k1"])])]
    (by decide) (by decide) (by decide) (by decide) (by decide)

/-- C3: the merged key set is exactly the union of the two query results'
key sets (with no duplicate keys), and after the keyword fix the flattened
list has exactly one record per key: same length as the key list, every key
contributing its record. -/
theorem merge_keys_union_flatten_complete (byKw byAu : Dict)
    (hKw : (alkeys byKw).Nodup) (_hAu : (alkeys byAu).Nodup) :
    (∀ k, k ∈ alkeys (dictMerge byKw byAu) ↔ k ∈ alkeys byKw ∨ k ∈ alkeys byAu)
    ∧ (alkeys (dictMerge byKw byAu)).Nodup
    ∧ ∀ d', fixKeywords (dictMerge byKw byAu) byKw = some d' →
        alkeys d' = alkeys (dictMerge byKw byAu)
        ∧ (flattenDict d').length = (alkeys d').length
        ∧ ∀ k ∈ alkeys d', ∃ r, alget? d' k = some r ∧ r ∈ flattenDict d' := by
  refine ⟨mem_alkeys_dictMerge byKw byAu, nodup_alkeys_dictMerge byKw byAu hKw, ?_⟩
  intro d' hfix
  refine ⟨fixKeywords_alkeys byKw _ d' hfix, by rw [flattenDict, List.length_map], ?_⟩
  intro k hk
  have hs := (alget_isSome_iff_mem_alkeys d' k).mpr hk
  obtain ⟨r, hr⟩ := Option.isSome_iff_exists.mp hs
  refine ⟨r, hr, ?_⟩
  have hrd : r = (alget? d' k).getD [] := by rw [hr]; rfl
  rw [flattenDict, hrd]
  exact List.mem_map_of_mem _ hk

/-- Witness for merge_keys_union_flatten_complete at concrete disjoint query
results. -/
theorem merge_keys_union_flatten_complete_witness :
    "B" ∈ alkeys (dictMerge [("A", [("keywords", Val.list ["k"])])] [("B", [("x", Val.str "1")])])
      ↔ "B" ∈ alkeys [("A", ([("keywords", Val.list ["k"])] : Record))]
        ∨ "B" ∈ alkeys [("B", ([("x", Val.str "1")] : Record))] :=
  (merge_keys_union_flatten_complete
    [("A", [("keywords", Val.list ["k"])])]
    [("B", [("x", Val.str "1")])]
    (by decide) (by decide)).1 "B"

/-- C4: a successful sort returns a permutation of the flattened list that
is pairwise non-decreasing in the bibcode order, every flattened record has
a string bibcode, and on records with bibcodes the sorting order is exactly
string comparison of the bibcodes. -/
theorem publications_sorted_by_bibcode (d : Dict) (qs : List Record)
    (h : sortPubs (flattenDict d) = some qs) :
    qs.Perm (flattenDict d)
    ∧ List.Pairwise pubLE qs
    ∧ (∀ p ∈ flattenDict d, (bibkey? p).isSome)
    ∧ (∀ p q : Record, ∀ s t, bibkey? p = some s → bibkey? q = some t →
        (pubLE p q ↔ strLe s t = true)) := by
  haveI : IsTotal Record pubLE := ⟨fun _ _ => lexLe_total _ _⟩
  haveI : IsTrans Record pubLE := ⟨fun _ _ _ h1 h2 => lexLe_trans _ _ _ h1 h2⟩
  unfold sortPubs at h
  by_cases hall : (flattenDict d).all (fun p => (bibkey? p).isSome) = true
  · rw [if_pos hall] at h
    cases h
    refine ⟨List.perm_insertionSort pubLE _, List.sorted_insertionSort pubLE _, ?_, ?_⟩
    · intro p hp
      exact List.all_eq_true.mp hall p hp
    · intro p q s t hs ht
      simp [pubLE, hs, ht]
  · rw [if_neg hall] at h
    cases h

/-- Witness for publications_sorted_by_bibcode: a two-record dict listed in
reverse bibcode order comes out sorted. -/
theorem publications_sorted_by_bibcode_witness :
    ([[("bibcode", Val.str "2020A...1.1A")], [("bibcode", Val.str "2021B...2.2B")]] : List Record).Perm
      (flattenDict [("2021B...2.2B", [("bibcode", Val.str "2021B...2.2B")]),
                    ("2020A...1.1A", [("bibcode", Val.str "2020A...1.1A")])])
    ∧ List.Pairwise pubLE
        [[("bibcode", Val.str "2020A...1.1A")], [("bibcode", Val.str "2021B...2.2B")]]
    ∧ (∀ p ∈ flattenDict [("2021B...2.2B", [("bibcode", Val.str "2021B...2.2B")]),
                          ("2020A...1.1A", [("bibcode", Val.str "2020A...1.1A")])],
        (bibkey? p).isSome)
    ∧ (∀ p q : Record, ∀ s t, bibkey? p = some s → bibkey? q = some t →
        (pubLE p q ↔ strLe s t = true)) :=
  publications_sorted_by_bibcode
    [("2021B...2.2B", [("bibcode", Val.str "2021B...2.2B")]),
     ("2020A...1.1A", [("bibcode", Val.str "2020A...1.1A")])]
    [[("bibcode", Val.str "2020A...1.1A")], [("bibcode", Val.str "2021B...2.2B")]]
    (by decide)

/-- C6 counterexample: telescopes is a displayed spreadsheet column, yet a
record whose telescopes field is a list keeps that list through the whole
run_pub pipeline, normalization included — not every displayed list-valued
field is comma-joined. -/
theorem telescopes_list_survives_normalization :
    "telescopes" ∈ alkeys spreadsheet_columns
    ∧ (buildPublications [("2020TEL..300.1X", telescopes_record)] []).map
        (fun ps => ps.map (fun p => alget? p "telescopes"))
      = some [some (Val.list ["SALT", "Lesedi"])] :=
  ⟨by decide, by decide⟩

/-- C6 amended: the normalization loop rewrites only the five columns
author, title, doi, keywords, page: a nonempty list value in one of them
becomes the comma-joined string, and every field outside the five keeps its
value exactly (so a displayed list-valued field such as telescopes may
remain a list). -/
theorem normalization_only_named_columns (p q : Record) (h : normalizeRecord p = some q) :
    (∀ c, c ∉ list_value_columns → alget? q c = alget? p c)
    ∧ (∀ c ∈ list_value_columns, ∀ xs, alget? p c = some (Val.list xs) → xs ≠ [] →
        alget? q c = some (Val.str (String.intercalate ", " xs))) := by
  constructor
  · intro c hc
    exact normFold_get_not_mem _ _ _ _ hc h
  · intro c hcm xs hget hne
    obtain ⟨htr, _, _⟩ := normFold_get_mem list_value_columns p q c (by decide) hcm h
    obtain ⟨w, hw, hq⟩ := htr _ hget
      (by cases xs with
          | nil => exact absurd rfl hne
          | cons x xs => rfl)
    rw [show pyJoin ", " (Val.list xs) = some (Val.str (String.intercalate ", " xs)) from rfl]
      at hw
    cases hw
    exact hq

/-- Witness for normalization_only_named_columns: a two-element author list
is comma-joined. -/
theorem normalization_only_named_columns_witness :
    alget? [("author", Val.str "A, B"), ("telescopes", Val.list ["SALT"])] "author"
      = some (Val.str (String.intercalate ", " ["A", "B"])) :=
  (normalization_only_named_columns
      [("author", Val.list ["A", "B"]), ("telescopes", Val.list ["SALT"])]
      [("author", Val.str "A, B"), ("telescopes", Val.list ["SALT"])]
      (by decide)).2
    "author" (by decide) ["A", "B"] (by decide) (by decide)

/-- C7: the enrichment loops write only ads_url, refereed and the five
display columns: every other field of every record is unchanged between
flattening and spreadsheet rendering, and a display column that is absent
stays absent while one holding an empty (falsy) value keeps it. -/
theorem enrichment_frame (ps rs : List Record) (h : enrichAll ps = some rs) :
    List.Forall₂ (fun p r =>
      (∀ c, c ∉ modified_columns → alget? r c = alget? p c)
      ∧ (∀ c ∈ list_value_columns,
          (alget? p c = none → alget? r c = none)
          ∧ ∀ v, alget? p c = some v → truthy v = false → alget? r c = some v)) ps rs := by
  simp only [enrichAll, Option.bind_eq_bind, Option.bind_eq_some] at h
  obtain ⟨q1s, h1, q2s, h2, h3⟩ := h
  have F1 := mapM_eq_some_forall2 addAdsUrl ps q1s h1
  have F2 := mapM_eq_some_forall2 addRefereed q1s q2s h2
  have F3 := mapM_eq_some_forall2 normalizeRecord q2s rs h3
  refine (forall2_comp (forall2_comp F1 F2) F3).imp ?_
  rintro p r ⟨q2, ⟨q1, hu, hr⟩, hn⟩
  constructor
  · intro c hc
    simp only [modified_columns, List.mem_cons, List.not_mem_nil, or_false] at hc
    push_neg at hc
    obtain ⟨h_url, h_ref, h_au, h_ti, h_doi, h_kw, h_pg⟩ := hc
    have hnc : c ∉ list_value_columns := by
      simp only [list_value_columns, List.mem_cons, List.not_mem_nil, or_false]
      push_neg
      exact ⟨h_au, h_ti, h_doi, h_kw, h_pg⟩
    rw [normFold_get_not_mem list_value_columns q2 r c hnc hn,
      addRefereed_get_ne q1 q2 c hr h_ref,
      addAdsUrl_get_ne p q1 c hu h_url]
  · intro c hcm
    have hc5 : c = "author" ∨ c = "title" ∨ c = "doi" ∨ c = "keywords" ∨ c = "page" := by
      simpa [list_value_columns] using hcm
    have h_ne_url : c ≠ "ads_url" := by
      rcases hc5 with rfl | rfl | rfl | rfl | rfl <;> decide
    have h_ne_ref : c ≠ "refereed" := by
      rcases hc5 with rfl | rfl | rfl | rfl | rfl <;> decide
    have hmem := normFold_get_mem list_value_columns q2 r c (by decide) hcm hn
    constructor
    · intro hv
      apply hmem.2.1
      rw [addRefereed_get_ne q1 q2 c hr h_ne_ref, addAdsUrl_get_ne p q1 c hu h_ne_url]
      exact hv
    · intro v hv htr
      apply hmem.2.2 v ?_ htr
      rw [addRefereed_get_ne q1 q2 c hr h_ne_ref, addAdsUrl_get_ne p q1 c hu h_ne_url]
      exact hv

/-- Witness for enrichment_frame: a record with no display columns gains
only ads_url and refereed. -/
theorem enrichment_frame_witness :
    List.Forall₂ (fun p r =>
      (∀ c, c ∉ modified_columns → alget? r c = alget? p c)
      ∧ (∀ c ∈ list_value_columns,
          (alget? p c = none → alget? r c = none)
          ∧ ∀ v, alget? p c = some v → truthy v = false → alget? r c = some v))
      [[("bibcode", Val.str "B1"), ("property", Val.list [])]]
      [[("bibcode", Val.str "B1"), ("property", Val.list []),
        ("ads_url", Val.str ("https://ui.adsabs.harvard.edu/#abs/" ++ "B1" ++ "/abstract")),
        ("refereed", Val.bool false)]] :=
  enrichment_frame
    [[("bibcode", Val.str "B1"), ("property", Val.list [])]]
    [[("bibcode", Val.str "B1"), ("property", Val.list []),
      ("ads_url", Val.str ("https://ui.adsabs.harvard.edu/#abs/" ++ "B1" ++ "/abstract")),
      ("refereed", Val.bool false)]]
    (by decide)

/-- C1: run_pub performs no deduplication against the previously-found
bibcodes: with the log file recording bibcode 2019MNRAS.100.200S and the
keyword query returning that same bibcode, previously_found_bibcodes
reports it as previously seen, yet the flattened publication list and the
rendered spreadsheet still contain it (run_pub never calls
previously_found_bibcodes, whose result the pipeline does not even take as
an input). -/
theorem run_pub_includes_previously_found :
    previously_found_bibcodes previously_recorded_fs
      = Except.ok ["2019MNRAS.100.200S"]
    ∧ (buildPublications by_keywords_example []).map
        (fun ps => ps.map (fun p => alget? p "bibcode"))
      = some [some (Val.str "2019MNRAS.100.200S")]
    ∧ (buildPublications by_keywords_example []).map
        (fun ps => (publications_spreadsheet ps (alkeys spreadsheet_columns)).map
          (fun row => row.contains (Val.str "2019MNRAS.100.200S")))
      = some [true] :=
  ⟨rfl, by decide, by decide⟩

end PubQuery
